import Mathlib

/-!
Shallow embedding of the `axka-rcu` crate (`src/lib.rs`): a read-copy-update
slot `Rcu<T>` whose single field is an atomic raw pointer to an `Arc<T>`
allocation.  We model the collection of `Arc` allocations as an explicit heap
addressed by `Nat`; each live allocation carries its strong count and its
payload, and a deallocated cell is `none`.  Raw pointers (`Arc::into_raw`) and
owned `Arc` handles are both modelled as heap addresses; ownership of one
strong reference is the usage discipline of the operations, exactly as in the
Rust source.
-/

namespace AxkaRcu

variable {T : Type}

/-- An `ArcInner<T>` allocation: its strong reference count and its payload. -/
structure ArcInner (T : Type) where
  strong : Nat
  value : T
deriving Repr, DecidableEq

/-- The heap of `Arc` allocations, addressed by list index; a `none` cell is a
deallocated (freed) allocation.  Allocation always appends, so addresses are
never reused. -/
abbrev Heap (T : Type) := List (Option (ArcInner T))

/-- The allocation stored at address `a`, or `none` if `a` was deallocated or
never allocated. -/
def cellAt (h : Heap T) (a : Nat) : Option (ArcInner T) :=
  (h[a]?).getD none

/-- The payload stored at address `a` (dereferencing the raw pointer). -/
def valueAt (h : Heap T) (a : Nat) : Option T :=
  (cellAt h a).map ArcInner.value

/-- Model of `Arc::new` followed by `Arc::into_raw`: a fresh allocation with
strong count 1; returns its raw address. -/
def arcNew (h : Heap T) (v : T) : Nat × Heap T :=
  (h.length, h ++ [some ⟨1, v⟩])

/-- Model of `Arc::increment_strong_count(ptr)` (as called by `Rcu::read`). -/
def incStrong (h : Heap T) (a : Nat) : Heap T :=
  match cellAt h a with
  | some inner => h.set a (some ⟨inner.strong + 1, inner.value⟩)
  | none => h

/-- Model of `drop(Arc::from_raw(ptr))`: decrement the strong count and, when
it reaches zero, deallocate the cell. -/
def dropArc (h : Heap T) (a : Nat) : Heap T :=
  match cellAt h a with
  | some inner =>
      if inner.strong ≤ 1 then h.set a none
      else h.set a (some ⟨inner.strong - 1, inner.value⟩)
  | none => h

/-- The `Rcu` slot: its one field is the `AtomicPtr<T>`, i.e. the raw address
of the current version's `Arc` allocation. -/
structure Rcu where
  ptr : Nat
deriving Repr, DecidableEq

/-- Model of `Rcu::new(value: Arc<T>)`: store the handle's raw address
(`Arc::into_raw` already happened in `arcNew`). -/
def Rcu.new (value : Nat) : Rcu :=
  ⟨value⟩

/-- Model of `Rcu::read`: load the pointer, increment the target's strong
count, and hand the caller an owned handle (the address). -/
def Rcu.read (r : Rcu) (h : Heap T) : Nat × Heap T :=
  (r.ptr, incStrong h r.ptr)

/-- Model of `Rcu::write(new_value: Arc<T>)`: swap the stored address for the
new handle's address, then release the strong reference recovered from the
swap. -/
def Rcu.write (r : Rcu) (h : Heap T) (newPtr : Nat) : Rcu × Heap T :=
  (⟨newPtr⟩, dropArc h r.ptr)

/-- Model of `Rcu::update`: `let mut value = (*self.read()).clone();` (the
temporary handle from `read` is dropped at the end of that statement), then
`updater(&mut value)` whose result is discarded, then
`self.write(Arc::new(value))`.  The `none` branch is the unreachable case of a
dangling current pointer. -/
def Rcu.update {R : Type} (r : Rcu) (h : Heap T) (updater : T → T × R) :
    Rcu × Heap T :=
  let tmp := (r.read h).1
  let h1 := (r.read h).2
  match valueAt h1 tmp with
  | some value =>
      let h2 := dropArc h1 tmp
      let value' := (updater value).1
      let (na, h3) := arcNew h2 value'
      r.write h3 na
  | none => (r, h1)

/-- Model of `Rcu::update` along the unwinding path: `read` increments the
count, the value is cloned, the temporary handle is dropped at the end of the
`let` statement, then `updater` unwinds; the private clone is discarded and
`write` is never reached. -/
def Rcu.updatePanic (r : Rcu) (h : Heap T) : Rcu × Heap T :=
  (r, dropArc (r.read h).2 (r.read h).1)

/-- Model of `impl Drop for Rcu<T>`: load the pointer and release the slot's
own strong reference to the current version. -/
def Rcu.dropRcu (r : Rcu) (h : Heap T) : Heap T :=
  dropArc h r.ptr

/-- Model of `impl From<T> for Rcu<T>`: `Self::new(Arc::new(value))`. -/
def Rcu.fromT (h : Heap T) (value : T) : Rcu × Heap T :=
  let (a, h1) := arcNew h value
  (Rcu.new a, h1)

/-- Model of `impl Default for Rcu<T>`: `Self::new(Arc::new(T::default()))`,
with the payload type's `Default::default()` value passed explicitly as `d`. -/
def Rcu.defaultRcu (h : Heap T) (d : T) : Rcu × Heap T :=
  let (a, h1) := arcNew h d
  (Rcu.new a, h1)

/-! Basic heap lemmas. -/

theorem lt_length_of_cellAt_eq_some {h : Heap T} {a : Nat} {inner : ArcInner T}
    (hp : cellAt h a = some inner) : a < h.length := by
  by_contra hge
  rw [cellAt, List.getElem?_eq_none (by omega)] at hp
  simp at hp

theorem cellAt_set_self {h : Heap T} {a : Nat} (x : Option (ArcInner T))
    (ha : a < h.length) : cellAt (h.set a x) a = x := by
  rw [cellAt, List.getElem?_set_self (by simpa using ha)]
  rfl

theorem cellAt_set_ne {h : Heap T} {a b : Nat} (x : Option (ArcInner T))
    (hne : a ≠ b) : cellAt (h.set a x) b = cellAt h b := by
  rw [cellAt, List.getElem?_set_ne hne, cellAt]

theorem cellAt_append_lt {h l : Heap T} {a : Nat} (ha : a < h.length) :
    cellAt (h ++ l) a = cellAt h a := by
  rw [cellAt, List.getElem?_append, if_pos ha, cellAt]

theorem cellAt_append_self {h : Heap T} (x : Option (ArcInner T)) :
    cellAt (h ++ [x]) h.length = x := by
  rw [cellAt, List.getElem?_append_right (Nat.le_refl _)]
  simp

theorem cellAt_of_length_le {h : Heap T} {a : Nat} (ha : h.length ≤ a) :
    cellAt h a = none := by
  rw [cellAt, List.getElem?_eq_none ha]
  rfl

theorem set_cellAt_eq_self {h : Heap T} {a : Nat} {x : Option (ArcInner T)}
    (hx : cellAt h a = x) (ha : a < h.length) : h.set a x = h := by
  induction h generalizing a with
  | nil => simp at ha
  | cons c t ih =>
      cases a with
      | zero =>
          have hc : x = c := by simpa [cellAt] using hx.symm
          subst hc
          rfl
      | succ m =>
          show c :: t.set m x = c :: t
          rw [ih (by simpa [cellAt] using hx) (by simpa using ha)]

theorem incStrong_eq_of_cellAt_some {h : Heap T} {a : Nat} {inner : ArcInner T}
    (hp : cellAt h a = some inner) :
    incStrong h a = h.set a (some ⟨inner.strong + 1, inner.value⟩) := by
  unfold incStrong
  rw [hp]

theorem dropArc_eq_of_cellAt_some {h : Heap T} {a : Nat} {inner : ArcInner T}
    (hp : cellAt h a = some inner) :
    dropArc h a =
      if inner.strong ≤ 1 then h.set a none
      else h.set a (some ⟨inner.strong - 1, inner.value⟩) := by
  unfold dropArc
  rw [hp]

theorem incStrong_eq_of_cellAt_none {h : Heap T} {a : Nat}
    (hp : cellAt h a = none) : incStrong h a = h := by
  unfold incStrong
  rw [hp]

theorem dropArc_eq_of_cellAt_none {h : Heap T} {a : Nat}
    (hp : cellAt h a = none) : dropArc h a = h := by
  unfold dropArc
  rw [hp]

theorem length_incStrong (h : Heap T) (a : Nat) :
    (incStrong h a).length = h.length := by
  rcases hc : cellAt h a with _ | inner
  · rw [incStrong_eq_of_cellAt_none hc]
  · rw [incStrong_eq_of_cellAt_some hc, List.length_set]

theorem length_dropArc (h : Heap T) (a : Nat) :
    (dropArc h a).length = h.length := by
  rcases hc : cellAt h a with _ | inner
  · rw [dropArc_eq_of_cellAt_none hc]
  · rw [dropArc_eq_of_cellAt_some hc]
    by_cases h1 : inner.strong ≤ 1 <;> simp [h1]

theorem cellAt_incStrong_ne {h : Heap T} {a b : Nat} (hne : a ≠ b) :
    cellAt (incStrong h a) b = cellAt h b := by
  rcases hc : cellAt h a with _ | inner
  · rw [incStrong_eq_of_cellAt_none hc]
  · rw [incStrong_eq_of_cellAt_some hc, cellAt_set_ne _ hne]

theorem cellAt_dropArc_ne {h : Heap T} {a b : Nat} (hne : a ≠ b) :
    cellAt (dropArc h a) b = cellAt h b := by
  rcases hc : cellAt h a with _ | inner
  · rw [dropArc_eq_of_cellAt_none hc]
  · rw [dropArc_eq_of_cellAt_some hc]
    by_cases h1 : inner.strong ≤ 1 <;> simp [h1, cellAt_set_ne _ hne]

theorem cellAt_incStrong_self {h : Heap T} {a : Nat} {inner : ArcInner T}
    (hp : cellAt h a = some inner) :
    cellAt (incStrong h a) a = some ⟨inner.strong + 1, inner.value⟩ := by
  rw [incStrong_eq_of_cellAt_some hp]
  exact cellAt_set_self _ (lt_length_of_cellAt_eq_some hp)

theorem cellAt_dropArc_self_of_one {h : Heap T} {a : Nat} {inner : ArcInner T}
    (hp : cellAt h a = some inner) (h1 : inner.strong ≤ 1) :
    cellAt (dropArc h a) a = none := by
  rw [dropArc_eq_of_cellAt_some hp, if_pos h1]
  exact cellAt_set_self _ (lt_length_of_cellAt_eq_some hp)

theorem cellAt_dropArc_self_of_gt {h : Heap T} {a : Nat} {inner : ArcInner T}
    (hp : cellAt h a = some inner) (h1 : 1 < inner.strong) :
    cellAt (dropArc h a) a = some ⟨inner.strong - 1, inner.value⟩ := by
  rw [dropArc_eq_of_cellAt_some hp, if_neg (by omega)]
  exact cellAt_set_self _ (lt_length_of_cellAt_eq_some hp)

/-- Incrementing and then releasing the same live reference restores the heap
exactly (the `Rcu::update` temporary, and the unwinding path of `update`). -/
theorem dropArc_incStrong {h : Heap T} {a : Nat} {inner : ArcInner T}
    (hp : cellAt h a = some inner) (hs : 0 < inner.strong) :
    dropArc (incStrong h a) a = h := by
  have ha := lt_length_of_cellAt_eq_some hp
  have hinc := cellAt_incStrong_self hp
  rw [dropArc_eq_of_cellAt_some hinc, if_neg (by simp; omega)]
  rw [incStrong_eq_of_cellAt_some hp, List.set_set]
  simp only [Nat.add_sub_cancel]
  exact set_cellAt_eq_self hp ha

/-- With the current pointer live, `Rcu::update` reduces to: clone the current
value, apply the updater to the private clone (discarding its result),
allocate the clone freshly, and `write` it. -/
theorem update_eq {R : Type} (r : Rcu) (h : Heap T) {inner : ArcInner T}
    (u : T → T × R) (hp : cellAt h r.ptr = some inner) (hs : 0 < inner.strong) :
    r.update h u =
      (⟨h.length⟩, dropArc (h ++ [some ⟨1, (u inner.value).1⟩]) r.ptr) := by
  have hv : valueAt (incStrong h r.ptr) r.ptr = some inner.value := by
    rw [valueAt, cellAt_incStrong_self hp]
    rfl
  simp only [Rcu.update, Rcu.read, hv, dropArc_incStrong hp hs, arcNew, Rcu.write]

/-!
The operation machine for the liveness/no-double-free invariant: a slot state
is the heap, the `Rcu` slot itself, and the multiset of outstanding reader
handles (addresses returned by `Rcu::read` and not yet dropped).  Each `Op` is
one client-visible operation of the crate's public API.
-/

/-- A client operation on the slot: `Rcu::read`, `Rcu::write` of a freshly
allocated `Arc`, `Rcu::update`, or dropping one outstanding reader handle. -/
inductive Op (T : Type) where
  | read
  | write (v : T)
  | update (f : T → T)
  | dropHandle (a : Nat)

/-- A slot state: the heap of `Arc` allocations, the slot, and the
outstanding reader handles. -/
structure SlotSt (T : Type) where
  heap : Heap T
  rcu : Rcu
  handles : List Nat

/-- The number of strong references held to address `a` by a slot `r` and a
list `hs` of outstanding reader handles: one for the slot if it is current,
plus one per outstanding handle. -/
def refs (r : Rcu) (hs : List Nat) (a : Nat) : Nat :=
  (if r.ptr = a then 1 else 0) + hs.count a

/-- The number of strong references the model holds to address `a`. -/
def refsTo (st : SlotSt T) (a : Nat) : Nat :=
  refs st.rcu st.handles a

/-- One step of the machine, each case calling the corresponding `Rcu`
operation. -/
def stepOp (st : SlotSt T) : Op T → SlotSt T
  | .read =>
      let (a, h) := st.rcu.read st.heap
      ⟨h, st.rcu, a :: st.handles⟩
  | .write v =>
      let (na, h) := arcNew st.heap v
      let (r, h2) := st.rcu.write h na
      ⟨h2, r, st.handles⟩
  | .update f =>
      let (r, h) := st.rcu.update st.heap (fun t => (f t, ()))
      ⟨h, r, st.handles⟩
  | .dropHandle a =>
      if a ∈ st.handles then ⟨dropArc st.heap a, st.rcu, st.handles.erase a⟩
      else st

/-- Run a sequence of operations. -/
def run (ops : List (Op T)) (st : SlotSt T) : SlotSt T :=
  ops.foldl stepOp st

/-- The state produced by `Rcu::new(Arc::new(v))` on an empty heap. -/
def initSt (v : T) : SlotSt T :=
  let (a, h) := arcNew ([] : Heap T) v
  ⟨h, Rcu.new a, []⟩

/-- Address `a` is in a good state: either it is a live allocation whose
strong count equals the number of references the model holds to it (and that
number is positive), or it is deallocated and unreachable. -/
def GoodAt (st : SlotSt T) (a : Nat) : Prop :=
  ((cellAt st.heap a).map ArcInner.strong = some (refsTo st a) ∧ 0 < refsTo st a) ∨
  (cellAt st.heap a = none ∧ refsTo st a = 0)

/-- The slot invariant: the current pointer and all handles are in range, and
every address is in a good state — so every reachable version is live with an
exact strong count, and every unreachable address is deallocated. -/
def Good (st : SlotSt T) : Prop :=
  st.rcu.ptr < st.heap.length ∧
  (∀ a ∈ st.handles, a < st.heap.length) ∧
  ∀ a, a < st.heap.length → GoodAt st a

theorem refsTo_ptr_pos (st : SlotSt T) : 0 < refsTo st st.rcu.ptr := by
  rw [refsTo, refs, if_pos rfl]
  omega

theorem refsTo_pos_of_mem {st : SlotSt T} {a : Nat} (ha : a ∈ st.handles) :
    0 < refsTo st a := by
  rw [refsTo, refs]
  have := List.count_pos_iff.2 ha
  omega

theorem refs_cons (r : Rcu) (hs : List Nat) (b a : Nat) :
    refs r (b :: hs) a = refs r hs a + (if a = b then 1 else 0) := by
  by_cases hab : a = b
  · subst hab
    rw [refs, refs, List.count_cons_self, if_pos rfl]
    omega
  · rw [refs, refs, List.count_cons_of_ne hab, if_neg hab, Nat.add_zero]

theorem refs_erase {hs : List Nat} {b : Nat} (r : Rcu) (hb : b ∈ hs) (a : Nat) :
    refs r (hs.erase b) a = refs r hs a - (if a = b then 1 else 0) := by
  by_cases hab : a = b
  · subst hab
    rw [refs, refs, List.count_erase_self, if_pos rfl]
    have := List.count_pos_iff.2 hb
    omega
  · rw [refs, refs, List.count_erase_of_ne hab, if_neg hab, Nat.sub_zero]

theorem count_eq_zero_of_forall_lt {hs : List Nat} {n : Nat}
    (hn : ∀ a ∈ hs, a < n) : hs.count n = 0 := by
  rw [List.count_eq_zero]
  intro hmem
  exact absurd (hn n hmem) (Nat.lt_irrefl n)

/-- In a good state, a positively-referenced address is a live cell whose
strong count equals the reference count. -/
theorem cellAt_eq_of_good {st : SlotSt T} (hg : Good st) {a : Nat}
    (ha : a < st.heap.length) (hpos : 0 < refsTo st a) :
    ∃ v, cellAt st.heap a = some ⟨refsTo st a, v⟩ := by
  rcases hg.2.2 a ha with ⟨hmap, _⟩ | ⟨_, hz⟩
  · rcases Option.map_eq_some'.1 hmap with ⟨inner, hcell, hstrong⟩
    exact ⟨inner.value, by rw [hcell, ← hstrong]⟩
  · omega

theorem refs_ptr_pos (r : Rcu) (hs : List Nat) : 0 < refs r hs r.ptr := by
  rw [refs, if_pos rfl]
  omega

theorem refs_pos_of_mem {hs : List Nat} {a : Nat} (r : Rcu) (ha : a ∈ hs) :
    0 < refs r hs a := by
  rw [refs]
  have := List.count_pos_iff.2 ha
  omega

/-- `Rcu::read` preserves the invariant: the new handle's +1 is accounted. -/
theorem read_good {h : Heap T} {r : Rcu} {hs : List Nat}
    (hg : Good ⟨h, r, hs⟩) : Good ⟨incStrong h r.ptr, r, r.ptr :: hs⟩ := by
  have hlt : r.ptr < h.length := hg.1
  have hhs : ∀ a ∈ hs, a < h.length := hg.2.1
  have hall : ∀ a, a < h.length →
      ((cellAt h a).map ArcInner.strong = some (refs r hs a) ∧ 0 < refs r hs a) ∨
      (cellAt h a = none ∧ refs r hs a = 0) := hg.2.2
  obtain ⟨v0, hcell0⟩ := cellAt_eq_of_good hg hlt (refs_ptr_pos r hs)
  have hcell : cellAt h r.ptr = some ⟨refs r hs r.ptr, v0⟩ := hcell0
  refine ⟨?_, ?_, ?_⟩
  · show r.ptr < (incStrong h r.ptr).length
    rw [length_incStrong]
    exact hlt
  · intro a ha
    show a < (incStrong h r.ptr).length
    rw [length_incStrong]
    rcases List.mem_cons.1 ha with rfl | ha
    · exact hlt
    · exact hhs a ha
  · intro a ha
    replace ha : a < (incStrong h r.ptr).length := ha
    rw [length_incStrong] at ha
    show ((cellAt (incStrong h r.ptr) a).map ArcInner.strong =
            some (refs r (r.ptr :: hs) a) ∧ 0 < refs r (r.ptr :: hs) a) ∨
          (cellAt (incStrong h r.ptr) a = none ∧ refs r (r.ptr :: hs) a = 0)
    rw [refs_cons r hs r.ptr a]
    by_cases hap : a = r.ptr
    · rw [if_pos hap, hap, cellAt_incStrong_self hcell]
      exact Or.inl ⟨rfl, by omega⟩
    · rw [if_neg hap, Nat.add_zero, cellAt_incStrong_ne (fun hc => hap hc.symm)]
      exact hall a ha

/-- Dropping one outstanding reader handle preserves the invariant. -/
theorem dropHandle_good {h : Heap T} {r : Rcu} {hs : List Nat} {b : Nat}
    (hg : Good ⟨h, r, hs⟩) (hb : b ∈ hs) :
    Good ⟨dropArc h b, r, hs.erase b⟩ := by
  have hlt : r.ptr < h.length := hg.1
  have hhs : ∀ a ∈ hs, a < h.length := hg.2.1
  have hall : ∀ a, a < h.length →
      ((cellAt h a).map ArcInner.strong = some (refs r hs a) ∧ 0 < refs r hs a) ∨
      (cellAt h a = none ∧ refs r hs a = 0) := hg.2.2
  have hblt : b < h.length := hhs b hb
  obtain ⟨v0, hcell0⟩ := cellAt_eq_of_good hg hblt (refs_pos_of_mem r hb)
  have hcell : cellAt h b = some ⟨refs r hs b, v0⟩ := hcell0
  have hbpos : 0 < refs r hs b := refs_pos_of_mem r hb
  refine ⟨?_, ?_, ?_⟩
  · show r.ptr < (dropArc h b).length
    rw [length_dropArc]
    exact hlt
  · intro a ha
    show a < (dropArc h b).length
    rw [length_dropArc]
    exact hhs a (List.mem_of_mem_erase ha)
  · intro a ha
    replace ha : a < (dropArc h b).length := ha
    rw [length_dropArc] at ha
    show ((cellAt (dropArc h b) a).map ArcInner.strong =
            some (refs r (hs.erase b) a) ∧ 0 < refs r (hs.erase b) a) ∨
          (cellAt (dropArc h b) a = none ∧ refs r (hs.erase b) a = 0)
    rw [refs_erase r hb a]
    by_cases hab : a = b
    · rw [if_pos hab, hab]
      by_cases hone : refs r hs b ≤ 1
      · exact Or.inr ⟨cellAt_dropArc_self_of_one hcell hone, by omega⟩
      · rw [cellAt_dropArc_self_of_gt hcell (show (1 : Nat) < refs r hs b by omega)]
        exact Or.inl ⟨rfl, by omega⟩
    · rw [if_neg hab, Nat.sub_zero, cellAt_dropArc_ne (fun hc => hab hc.symm)]
      exact hall a ha

set_option maxHeartbeats 1000000 in
/-- `Rcu::write` of a freshly allocated version preserves the invariant: the
new version enters with strong count 1 (the slot's reference), and the old
version loses the slot's reference, being deallocated exactly when no reader
handle still refers to it. -/
theorem write_good {h : Heap T} {r : Rcu} {hs : List Nat} (v : T)
    (hg : Good ⟨h, r, hs⟩) :
    Good ⟨dropArc (h ++ [some ⟨1, v⟩]) r.ptr, ⟨h.length⟩, hs⟩ := by
  have hlt : r.ptr < h.length := hg.1
  have hhs : ∀ a ∈ hs, a < h.length := hg.2.1
  have hall : ∀ a, a < h.length →
      ((cellAt h a).map ArcInner.strong = some (refs r hs a) ∧ 0 < refs r hs a) ∨
      (cellAt h a = none ∧ refs r hs a = 0) := hg.2.2
  obtain ⟨v0, hcell0⟩ := cellAt_eq_of_good hg hlt (refs_ptr_pos r hs)
  have hcell : cellAt h r.ptr = some ⟨refs r hs r.ptr, v0⟩ := hcell0
  have hRpos : 0 < refs r hs r.ptr := refs_ptr_pos r hs
  have hne : r.ptr ≠ h.length := Nat.ne_of_lt hlt
  have hcount : hs.count h.length = 0 := count_eq_zero_of_forall_lt hhs
  have hcell2 : cellAt (h ++ [some ⟨1, v⟩]) r.ptr
      = some ⟨refs r hs r.ptr, v0⟩ := by
    rw [cellAt_append_lt hlt]
    exact hcell
  have hlen : (dropArc (h ++ [some ⟨1, v⟩]) r.ptr).length = h.length + 1 := by
    rw [length_dropArc, List.length_append, List.length_singleton]
  refine ⟨?_, ?_, ?_⟩
  · show h.length < (dropArc (h ++ [some ⟨1, v⟩]) r.ptr).length
    omega
  · intro a ha
    show a < (dropArc (h ++ [some ⟨1, v⟩]) r.ptr).length
    have := hhs a ha
    omega
  · intro a ha
    replace ha : a < (dropArc (h ++ [some ⟨1, v⟩]) r.ptr).length := ha
    rw [hlen] at ha
    show ((cellAt (dropArc (h ++ [some ⟨1, v⟩]) r.ptr) a).map ArcInner.strong =
            some (refs ⟨h.length⟩ hs a) ∧ 0 < refs ⟨h.length⟩ hs a) ∨
          (cellAt (dropArc (h ++ [some ⟨1, v⟩]) r.ptr) a = none ∧
            refs ⟨h.length⟩ hs a = 0)
    by_cases hap : a = r.ptr
    · rw [hap]
      have hrefs : refs ⟨h.length⟩ hs r.ptr = refs r hs r.ptr - 1 := by
        show (if h.length = r.ptr then 1 else 0) + hs.count r.ptr
          = (if r.ptr = r.ptr then 1 else 0) + hs.count r.ptr - 1
        rw [if_neg (fun hc => hne hc.symm), if_pos rfl]
        omega
      rw [hrefs]
      by_cases hone : refs r hs r.ptr ≤ 1
      · rw [cellAt_dropArc_self_of_one hcell2 hone]
        exact Or.inr ⟨rfl, by omega⟩
      · rw [cellAt_dropArc_self_of_gt hcell2
            (show (1 : Nat) < refs r hs r.ptr by omega)]
        exact Or.inl ⟨rfl, by omega⟩
    · rw [cellAt_dropArc_ne (fun hc => hap hc.symm)]
      by_cases han : a = h.length
      · rw [han, cellAt_append_self]
        have hrefs : refs ⟨h.length⟩ hs h.length = 1 := by
          show (if h.length = h.length then 1 else 0) + hs.count h.length = 1
          rw [if_pos rfl, hcount]
        rw [hrefs]
        exact Or.inl ⟨rfl, Nat.zero_lt_one⟩
      · replace ha : a < h.length := by omega
        rw [cellAt_append_lt ha]
        have hrefs : refs ⟨h.length⟩ hs a = refs r hs a := by
          show (if h.length = a then 1 else 0) + hs.count a
            = (if r.ptr = a then 1 else 0) + hs.count a
          rw [if_neg (fun hc => han hc.symm), if_neg (fun hc => hap hc.symm)]
        rw [hrefs]
        exact hall a ha

/-- Every operation of the public API preserves the invariant. -/
theorem stepOp_good {st : SlotSt T} (hg : Good st) (op : Op T) :
    Good (stepOp st op) := by
  obtain ⟨h, r, hs⟩ := st
  cases op with
  | read => exact read_good hg
  | write v => exact write_good v hg
  | update f =>
      have hlt : r.ptr < h.length := hg.1
      have hRpos : 0 < refs r hs r.ptr := refs_ptr_pos r hs
      obtain ⟨v0, hcell0⟩ := cellAt_eq_of_good hg hlt hRpos
      have hcell : cellAt h r.ptr = some ⟨refs r hs r.ptr, v0⟩ := hcell0
      simp only [stepOp]
      rw [update_eq r h (fun t => (f t, ())) hcell hRpos]
      exact write_good _ hg
  | dropHandle a =>
      simp only [stepOp]
      by_cases hmem : a ∈ hs
      · rw [if_pos hmem]
        exact dropHandle_good hg hmem
      · rw [if_neg hmem]
        exact hg

/-- The state after `Rcu::new(Arc::new(v))` satisfies the invariant. -/
theorem initSt_good (v : T) : Good (initSt v) := by
  refine ⟨Nat.zero_lt_one, ?_, ?_⟩
  · intro a ha
    cases ha
  · intro a ha
    have ha0 : a = 0 := by
      have : a < 1 := ha
      omega
    subst ha0
    exact Or.inl ⟨rfl, Nat.zero_lt_one⟩

/-- The invariant holds after any sequence of operations from a fresh slot. -/
theorem run_good (ops : List (Op T)) {st : SlotSt T} (hg : Good st) :
    Good (run ops st) := by
  induction ops generalizing st with
  | nil => exact hg
  | cons op rest ih => exact ih (stepOp_good hg op)

/-- A deallocated cell is never resurrected by `incStrong`. -/
theorem cellAt_incStrong_none {h : Heap T} {b a : Nat}
    (hdead : cellAt h a = none) : cellAt (incStrong h b) a = none := by
  by_cases hba : b = a
  · subst hba
    rw [incStrong_eq_of_cellAt_none hdead]
    exact hdead
  · rw [cellAt_incStrong_ne hba]
    exact hdead

/-- A deallocated cell is never resurrected by `dropArc`. -/
theorem cellAt_dropArc_none {h : Heap T} {b a : Nat}
    (hdead : cellAt h a = none) : cellAt (dropArc h b) a = none := by
  by_cases hba : b = a
  · subst hba
    rw [dropArc_eq_of_cellAt_none hdead]
    exact hdead
  · rw [cellAt_dropArc_ne hba]
    exact hdead

/-- No operation resurrects a deallocated cell: deallocation is permanent, so
a version can be deallocated at most once. -/
theorem stepOp_preserves_dead {st : SlotSt T} (op : Op T) {a : Nat}
    (ha : a < st.heap.length) (hdead : cellAt st.heap a = none) :
    cellAt (stepOp st op).heap a = none := by
  obtain ⟨h, r, hs⟩ := st
  replace ha : a < h.length := ha
  replace hdead : cellAt h a = none := hdead
  cases op with
  | read =>
      show cellAt (incStrong h r.ptr) a = none
      exact cellAt_incStrong_none hdead
  | write v =>
      show cellAt (dropArc (h ++ [some ⟨1, v⟩]) r.ptr) a = none
      exact cellAt_dropArc_none (by rw [cellAt_append_lt ha]; exact hdead)
  | update f =>
      simp only [stepOp, Rcu.update, Rcu.read]
      rcases hv : valueAt (incStrong h r.ptr) r.ptr with _ | v
      · simp only [hv]
        exact cellAt_incStrong_none hdead
      · simp only [hv, arcNew, Rcu.write]
        apply cellAt_dropArc_none
        have hlen : a < (dropArc (incStrong h r.ptr) r.ptr).length := by
          rw [length_dropArc, length_incStrong]
          exact ha
        rw [cellAt_append_lt hlen]
        exact cellAt_dropArc_none (cellAt_incStrong_none hdead)
  | dropHandle b =>
      simp only [stepOp]
      by_cases hmem : b ∈ hs
      · rw [if_pos hmem]
        exact cellAt_dropArc_none hdead
      · rw [if_neg hmem]
        exact hdead

/-!
The instrumented world of the test suite (`mod tests` in `src/lib.rs`): the
payload type `Version` carries a version number; `Version::new` logs an
`Initialize` event, `Version::clone` logs a `Clone` event, and `Version`'s
`Drop` impl logs a `Drop` event.  We model the payload as its version number
and carry the chronological event log and the fresh-number counter alongside
the heap.
-/

/-- Lifecycle events recorded by the instrumented `Version` payload. -/
inductive Event where
  | init (n : Nat)
  | cloneEv (src dst : Nat)
  | dropV (n : Nat)
deriving Repr, DecidableEq

/-- The instrumented world: a heap whose payloads are version numbers, the
event log, and the next fresh version number. -/
structure EvWorld where
  heap : Heap Nat
  events : List Event
  next : Nat
deriving Repr, DecidableEq

/-- `Version::new`: take a fresh version number and log its initialization;
returns the new payload. -/
def versionNew (s : EvWorld) : EvWorld × Nat :=
  ({ s with events := s.events ++ [Event.init s.next], next := s.next + 1 },
   s.next)

/-- `Version::clone`: take a fresh version number and log the clone. -/
def versionClone (s : EvWorld) (src : Nat) : EvWorld × Nat :=
  ({ s with events := s.events ++ [Event.cloneEv src s.next],
            next := s.next + 1 },
   s.next)

/-- `drop(Arc::from_raw(ptr))` in the instrumented world: when the strong
count reaches zero, the allocation is freed and the payload's `Drop` impl
logs the drop. -/
def dropArcEv (s : EvWorld) (a : Nat) : EvWorld :=
  match cellAt s.heap a with
  | some inner =>
      if inner.strong ≤ 1 then
        { s with heap := s.heap.set a none,
                 events := s.events ++ [Event.dropV inner.value] }
      else
        { s with heap := s.heap.set a (some ⟨inner.strong - 1, inner.value⟩) }
  | none => s

/-- `Arc::new`/`Arc::into_raw` in the instrumented world. -/
def arcNewEv (s : EvWorld) (n : Nat) : EvWorld × Nat :=
  ({ s with heap := (arcNew s.heap n).2 }, (arcNew s.heap n).1)

/-- `Rcu::read` in the instrumented world (no event: cloning an `Arc` does
not clone the payload). -/
def readEv (r : Rcu) (s : EvWorld) : Nat × EvWorld :=
  ((r.read s.heap).1, { s with heap := (r.read s.heap).2 })

/-- `Rcu::write` in the instrumented world: swap the address, release the
previous version. -/
def writeEv (r : Rcu) (s : EvWorld) (na : Nat) : Rcu × EvWorld :=
  (⟨na⟩, dropArcEv s r.ptr)

/-- `Drop for Rcu` in the instrumented world. -/
def dropRcuEv (r : Rcu) (s : EvWorld) : EvWorld :=
  dropArcEv s r.ptr

/-- Dropping one owner of an `Arc<Rcu<T>>`: only the last owner tears the
slot down. -/
def dropOwnerEv (outer : Nat) (r : Rcu) (s : EvWorld) : Nat × EvWorld :=
  if outer ≤ 1 then (0, dropRcuEv r s) else (outer - 1, s)

/-- The instrumented `dropArcEv` acts on the heap exactly as `dropArc`. -/
theorem dropArcEv_heap (s : EvWorld) (a : Nat) :
    (dropArcEv s a).heap = dropArc s.heap a := by
  unfold dropArcEv dropArc
  cases cellAt s.heap a with
  | none => rfl
  | some inner =>
      by_cases h1 : inner.strong ≤ 1 <;> simp [h1]

/-- Scenario B (`tests::test_read`): construct with V0, take a reader handle
H0 via `read()`, `write(V1)`, tear down the slot, then drop H0. -/
def scenarioB : EvWorld :=
  let s0 : EvWorld := ⟨[], [], 0⟩
  let r1 := versionNew s0
  let r2 := arcNewEv r1.1 r1.2
  let rcu := Rcu.new r2.2
  let r3 := readEv rcu r2.1
  let firstVer := r3.1
  let r4 := versionNew r3.2
  let r5 := arcNewEv r4.1 r4.2
  let r6 := writeEv rcu r5.1 r5.2
  let s7 := dropRcuEv r6.1 r6.2
  dropArcEv s7 firstVer

/-- Scenario D (`tests::test_multiple`): two owners of the same slot; one
writes V1 and is dropped; the other writes V2 and is dropped. -/
def scenarioD : EvWorld :=
  let s0 : EvWorld := ⟨[], [], 0⟩
  let r1 := versionNew s0
  let r2 := arcNewEv r1.1 r1.2
  let rcu := Rcu.new r2.2
  let outer1 := 2
  let r3 := versionNew r2.1
  let r4 := arcNewEv r3.1 r3.2
  let r5 := writeEv rcu r4.1 r4.2
  let r6 := dropOwnerEv outer1 r5.1 r5.2
  let r7 := versionNew r6.2
  let r8 := arcNewEv r7.1 r7.2
  let r9 := writeEv r5.1 r8.1 r8.2
  (dropOwnerEv r6.1 r9.1 r9.2).2

/-!
Claim theorems.
-/

/-- C1: for any sequence of interleaved `read`, `write`, `update` and
handle-drop operations on a slot, every version that is live (reachable from
the slot or from an outstanding reader handle) is a live allocation whose
strong count is exactly the number of references held to it — so it is never
deallocated while reachable — every unreachable version is deallocated, and a
deallocated version is never resurrected by any further operation: every
version is deallocated exactly once, at the point it becomes unreachable. -/
theorem rcu_no_leak_no_double_free (ops : List (Op T)) (v0 : T) :
    Good (run ops (initSt v0)) ∧
    ∀ (op : Op T) (a : Nat), a < (run ops (initSt v0)).heap.length →
      cellAt (run ops (initSt v0)).heap a = none →
      cellAt (stepOp (run ops (initSt v0)) op).heap a = none :=
  ⟨run_good ops (initSt_good v0),
   fun op _ ha hdead => stepOp_preserves_dead op ha hdead⟩

/-- Witness for C1 at a concrete run: after one `write`, the initial
version's cell is deallocated and stays deallocated across a further read. -/
theorem rcu_no_leak_no_double_free_witness :
    Good (run [Op.write 7] (initSt 5)) ∧
    0 < (run [Op.write 7] (initSt 5)).heap.length ∧
    cellAt (run [Op.write 7] (initSt 5)).heap 0 = none ∧
    cellAt (stepOp (run [Op.write 7] (initSt 5)) Op.read).heap 0 = none :=
  ⟨(rcu_no_leak_no_double_free [Op.write 7] 5).1, by decide, by decide,
   (rcu_no_leak_no_double_free [Op.write 7] 5).2 Op.read 0 (by decide)
     (by decide)⟩

/-- C2: `Rcu::write(new)` swaps the slot's stored address for the new
handle's address and then releases exactly one strong reference to the
previously-current version; if that release drives the previous version's
strong count to zero, the previous version is deallocated synchronously as
part of the write call, and afterwards a read returns the newly written
value. -/
theorem rcu_write_spec (r : Rcu) (h : Heap T) (na : Nat)
    (inner newInner : ArcInner T) (hp : cellAt h r.ptr = some inner)
    (hna : cellAt h na = some newInner) (hne : na ≠ r.ptr) :
    (r.write h na).1.ptr = na ∧
    (inner.strong = 1 → cellAt (r.write h na).2 r.ptr = none) ∧
    (1 < inner.strong →
      cellAt (r.write h na).2 r.ptr = some ⟨inner.strong - 1, inner.value⟩) ∧
    ((r.write h na).1.read (r.write h na).2).1 = na ∧
    valueAt ((r.write h na).1.read (r.write h na).2).2 na
      = some newInner.value := by
  refine ⟨rfl, ?_, ?_, rfl, ?_⟩
  · intro h1
    exact cellAt_dropArc_self_of_one hp (by omega)
  · intro h1
    exact cellAt_dropArc_self_of_gt hp h1
  · show valueAt (incStrong (dropArc h r.ptr) na) na = some newInner.value
    have hna2 : cellAt (dropArc h r.ptr) na = some newInner := by
      rw [cellAt_dropArc_ne (fun hc => hne hc.symm)]
      exact hna
    rw [valueAt, cellAt_incStrong_self hna2]
    rfl

/-- Witness for C2: writing address 1 over current address 0 in a two-cell
heap deallocates the old version and a read then returns the new value. -/
theorem rcu_write_spec_witness :
    cellAt ([some ⟨1, 5⟩, some ⟨1, 7⟩] : Heap Nat) (Rcu.mk 0).ptr
      = some ⟨1, 5⟩ ∧
    cellAt ([some ⟨1, 5⟩, some ⟨1, 7⟩] : Heap Nat) 1 = some ⟨1, 7⟩ ∧
    (1 : Nat) ≠ (Rcu.mk 0).ptr ∧
    cellAt ((Rcu.mk 0).write ([some ⟨1, 5⟩, some ⟨1, 7⟩] : Heap Nat) 1).2
      (Rcu.mk 0).ptr = none ∧
    valueAt (((Rcu.mk 0).write ([some ⟨1, 5⟩, some ⟨1, 7⟩] : Heap Nat) 1).1.read
      ((Rcu.mk 0).write ([some ⟨1, 5⟩, some ⟨1, 7⟩] : Heap Nat) 1).2).2 1
      = some 7 :=
  ⟨by decide, by decide, by decide,
   (rcu_write_spec (Rcu.mk 0) [some ⟨1, 5⟩, some ⟨1, 7⟩] 1 ⟨1, 5⟩ ⟨1, 7⟩
     (by decide) (by decide) (by decide)).2.1 rfl,
   (rcu_write_spec (Rcu.mk 0) [some ⟨1, 5⟩, some ⟨1, 7⟩] 1 ⟨1, 5⟩ ⟨1, 7⟩
     (by decide) (by decide) (by decide)).2.2.2.2⟩

/-- C3: `Rcu::update(updater)` reads the current version, clones its value,
applies the updater to the private clone only (the shared version's payload
is never mutated), and publishes the mutated clone via `write`: afterwards
the slot points at a fresh allocation, a subsequent read returns `f` of the
value that was current when `update` began, and the internal read handle's
increment is matched by a decrement — the old version's strong count drops by
exactly one in total, deallocating it when it reaches zero. -/
theorem rcu_update_spec (r : Rcu) (h : Heap T) (inner : ArcInner T)
    (f : T → T) (r' : Rcu) (h' : Heap T)
    (hp : cellAt h r.ptr = some inner) (hpos : 0 < inner.strong)
    (heq : r.update h (fun t => (f t, ())) = (r', h')) :
    r'.ptr = h.length ∧
    valueAt h' r'.ptr = some (f inner.value) ∧
    (inner.strong = 1 → cellAt h' r.ptr = none) ∧
    (1 < inner.strong →
      cellAt h' r.ptr = some ⟨inner.strong - 1, inner.value⟩) ∧
    valueAt (r'.read h').2 (r'.read h').1 = some (f inner.value) := by
  have hlt := lt_length_of_cellAt_eq_some hp
  have hne : r.ptr ≠ h.length := Nat.ne_of_lt hlt
  rw [update_eq r h _ hp hpos] at heq
  replace heq : ((⟨h.length⟩ : Rcu),
      dropArc (h ++ [some ⟨1, f inner.value⟩]) r.ptr) = (r', h') := heq
  injection heq with h1 h2
  subst h1
  subst h2
  have hc2 : cellAt (h ++ [some ⟨1, f inner.value⟩]) r.ptr = some inner := by
    rw [cellAt_append_lt hlt]
    exact hp
  have hnew : cellAt (dropArc (h ++ [some ⟨1, f inner.value⟩]) r.ptr) h.length
      = some ⟨1, f inner.value⟩ := by
    rw [cellAt_dropArc_ne hne, cellAt_append_self]
  refine ⟨rfl, ?_, ?_, ?_, ?_⟩
  · have key : valueAt (dropArc (h ++ [some ⟨1, f inner.value⟩]) r.ptr)
        h.length = some (f inner.value) := by
      rw [valueAt, hnew]
      rfl
    exact key
  · intro hone
    exact cellAt_dropArc_self_of_one hc2 (by omega)
  · intro hgt
    exact cellAt_dropArc_self_of_gt hc2 hgt
  · have key : valueAt
        (incStrong (dropArc (h ++ [some ⟨1, f inner.value⟩]) r.ptr) h.length)
        h.length = some (f inner.value) := by
      rw [valueAt, cellAt_incStrong_self hnew]
      rfl
    exact key

/-- Witness for C3: updating a one-cell slot with the successor function
publishes a fresh version holding 6 and deallocates the old version. -/
theorem rcu_update_spec_witness :
    cellAt ([some ⟨1, 5⟩] : Heap Nat) (Rcu.mk 0).ptr = some ⟨1, 5⟩ ∧
    Rcu.update (Rcu.mk 0) ([some ⟨1, 5⟩] : Heap Nat) (fun t => (t + 1, ()))
      = (Rcu.mk 1, [none, some ⟨1, 6⟩]) ∧
    valueAt ([none, some ⟨1, 6⟩] : Heap Nat) (Rcu.mk 1).ptr = some 6 ∧
    cellAt ([none, some ⟨1, 6⟩] : Heap Nat) (Rcu.mk 0).ptr = none :=
  ⟨by decide, by decide,
   (rcu_update_spec (Rcu.mk 0) [some ⟨1, 5⟩] ⟨1, 5⟩ (fun t => t + 1)
     (Rcu.mk 1) [none, some ⟨1, 6⟩] (by decide) (by decide) (by decide)).2.1,
   (rcu_update_spec (Rcu.mk 0) [some ⟨1, 5⟩] ⟨1, 5⟩ (fun t => t + 1)
     (Rcu.mk 1) [none, some ⟨1, 6⟩] (by decide) (by decide)
     (by decide)).2.2.1 rfl⟩

/-- C4: `Rcu::read` loads the current address, increments that version's
strong count by exactly one (no other cell changes), and returns a
newly-owned handle to it; the handle does not affect which version the slot
considers current (a further read still returns the same address), and
holding the handle keeps its target version live even after a subsequent
write replaces the current version. -/
theorem rcu_read_spec (r : Rcu) (h : Heap T) (inner : ArcInner T) (v : T)
    (hp : cellAt h r.ptr = some inner) (hpos : 0 < inner.strong) :
    (r.read h).1 = r.ptr ∧
    cellAt (r.read h).2 r.ptr = some ⟨inner.strong + 1, inner.value⟩ ∧
    (∀ b, b ≠ r.ptr → cellAt (r.read h).2 b = cellAt h b) ∧
    (r.read (r.read h).2).1 = r.ptr ∧
    (cellAt (r.write (arcNew (r.read h).2 v).2 (arcNew (r.read h).2 v).1).2
      r.ptr).isSome = true := by
  have hlt := lt_length_of_cellAt_eq_some hp
  refine ⟨rfl, ?_, ?_, rfl, ?_⟩
  · exact cellAt_incStrong_self hp
  · intro b hb
    exact cellAt_incStrong_ne (fun hc => hb hc.symm)
  · have h1 : cellAt (incStrong h r.ptr ++ [some ⟨1, v⟩]) r.ptr
        = some ⟨inner.strong + 1, inner.value⟩ := by
      rw [cellAt_append_lt (by rw [length_incStrong]; exact hlt)]
      exact cellAt_incStrong_self hp
    have key : (cellAt (dropArc (incStrong h r.ptr ++ [some ⟨1, v⟩]) r.ptr)
        r.ptr).isSome = true := by
      rw [cellAt_dropArc_self_of_gt h1
        (show (1 : Nat) < inner.strong + 1 by omega)]
      rfl
    exact key

/-- Witness for C4: reading a one-cell slot increments the count to 2, does
not disturb other cells, and the handle's target survives a later write. -/
theorem rcu_read_spec_witness :
    cellAt ([some ⟨1, 5⟩] : Heap Nat) (Rcu.mk 0).ptr = some ⟨1, 5⟩ ∧
    ((Rcu.mk 0).read ([some ⟨1, 5⟩] : Heap Nat)).1 = (Rcu.mk 0).ptr ∧
    cellAt ((Rcu.mk 0).read ([some ⟨1, 5⟩] : Heap Nat)).2 (Rcu.mk 0).ptr
      = some ⟨2, 5⟩ ∧
    (cellAt ((Rcu.mk 0).write
      (arcNew ((Rcu.mk 0).read ([some ⟨1, 5⟩] : Heap Nat)).2 9).2
      (arcNew ((Rcu.mk 0).read ([some ⟨1, 5⟩] : Heap Nat)).2 9).1).2
      (Rcu.mk 0).ptr).isSome = true :=
  ⟨by decide,
   (rcu_read_spec (Rcu.mk 0) [some ⟨1, 5⟩] ⟨1, 5⟩ 9 (by decide) (by decide)).1,
   (rcu_read_spec (Rcu.mk 0) [some ⟨1, 5⟩] ⟨1, 5⟩ 9 (by decide)
     (by decide)).2.1,
   (rcu_read_spec (Rcu.mk 0) [some ⟨1, 5⟩] ⟨1, 5⟩ 9 (by decide)
     (by decide)).2.2.2.2⟩

/-- C5: if the user-supplied updater closure panics, the private clone is
discarded without being published, `write` is never reached, and the slot and
heap are exactly in their pre-update state — no partial write is visible. -/
theorem rcu_update_panic_spec (r : Rcu) (h : Heap T) (inner : ArcInner T)
    (hp : cellAt h r.ptr = some inner) (hpos : 0 < inner.strong) :
    r.updatePanic h = (r, h) := by
  show (r, dropArc (incStrong h r.ptr) r.ptr) = (r, h)
  rw [dropArc_incStrong hp hpos]

/-- Witness for C5: the unwinding path leaves a concrete slot untouched. -/
theorem rcu_update_panic_spec_witness :
    cellAt ([some ⟨1, 5⟩] : Heap Nat) (Rcu.mk 0).ptr = some ⟨1, 5⟩ ∧
    Rcu.updatePanic (Rcu.mk 0) ([some ⟨1, 5⟩] : Heap Nat)
      = (Rcu.mk 0, [some ⟨1, 5⟩]) :=
  ⟨by decide,
   rcu_update_panic_spec (Rcu.mk 0) [some ⟨1, 5⟩] ⟨1, 5⟩ (by decide)
     (by decide)⟩

/-- C6: scenario B — construct with V0, take a reader handle H0 via `read`,
write V1, tear the slot down, then drop H0; the lifecycle order is exactly:
V0 initialized, V1 initialized, V1 dropped (teardown releases the slot's
reference to V1), V0 dropped (H0's release is the last reference to V0). -/
theorem rcu_scenario_b_events :
    scenarioB.events
      = [Event.init 0, Event.init 1, Event.dropV 1, Event.dropV 0] := by
  decide

/-- C7: scenario D — two owners sharing the same slot, one writes V1 and is
dropped, the other writes V2 and is dropped; the lifecycle order is exactly:
V0 initialized, V1 initialized, V0 dropped (superseded by V1), V2
initialized, V1 dropped (superseded by V2), V2 dropped (final teardown). -/
theorem rcu_scenario_d_events :
    scenarioD.events
      = [Event.init 0, Event.init 1, Event.dropV 0, Event.init 2,
         Event.dropV 1, Event.dropV 2] := by
  decide

/-- C8: all three construction paths round-trip — a read after
`Rcu::new(Arc::new(v))` returns `v`, a read after `Rcu::from(v)` returns the
auto-wrapped `v`, and a read after `Rcu::default()` returns the payload
type's default value. -/
theorem rcu_construction_round_trip (h : Heap T) (v d : T) :
    valueAt ((Rcu.new (arcNew h v).1).read (arcNew h v).2).2
      ((Rcu.new (arcNew h v).1).read (arcNew h v).2).1 = some v ∧
    valueAt ((Rcu.fromT h v).1.read (Rcu.fromT h v).2).2
      ((Rcu.fromT h v).1.read (Rcu.fromT h v).2).1 = some v ∧
    valueAt ((Rcu.defaultRcu h d).1.read (Rcu.defaultRcu h d).2).2
      ((Rcu.defaultRcu h d).1.read (Rcu.defaultRcu h d).2).1 = some d := by
  have key : ∀ x : T,
      valueAt (incStrong (h ++ [some ⟨1, x⟩]) h.length) h.length = some x := by
    intro x
    rw [valueAt, cellAt_incStrong_self (cellAt_append_self _)]
    rfl
  exact ⟨key v, key v, key d⟩

/-- C10: every `update` call — even with an updater that leaves the value
unchanged — clones the current value, allocates and publishes a fresh version
at a new address, and releases the slot's strong reference to the
previously-current version; the updater's return value, of any type, is
discarded. -/
theorem rcu_update_always_fresh {R : Type} (r : Rcu) (h : Heap T)
    (inner : ArcInner T) (u : T → T × R) (r' : Rcu) (h' : Heap T)
    (hp : cellAt h r.ptr = some inner) (hpos : 0 < inner.strong)
    (heq : r.update h u = (r', h')) :
    r'.ptr = h.length ∧
    r.ptr ≠ h.length ∧
    h'.length = h.length + 1 ∧
    valueAt h' r'.ptr = some ((u inner.value).1) ∧
    (inner.strong = 1 → cellAt h' r.ptr = none) ∧
    (1 < inner.strong →
      cellAt h' r.ptr = some ⟨inner.strong - 1, inner.value⟩) ∧
    r.update h u = r.update h (fun t => ((u t).1, ())) := by
  have hlt := lt_length_of_cellAt_eq_some hp
  have hne : r.ptr ≠ h.length := Nat.ne_of_lt hlt
  rw [update_eq r h u hp hpos] at heq
  injection heq with h1 h2
  subst h1
  subst h2
  have hc2 : cellAt (h ++ [some ⟨1, (u inner.value).1⟩]) r.ptr
      = some inner := by
    rw [cellAt_append_lt hlt]
    exact hp
  refine ⟨rfl, hne, ?_, ?_, ?_, ?_, ?_⟩
  · have key : (dropArc (h ++ [some ⟨1, (u inner.value).1⟩]) r.ptr).length
        = h.length + 1 := by
      rw [length_dropArc, List.length_append, List.length_singleton]
    exact key
  · have key : valueAt (dropArc (h ++ [some ⟨1, (u inner.value).1⟩]) r.ptr)
        h.length = some ((u inner.value).1) := by
      rw [valueAt, cellAt_dropArc_ne hne, cellAt_append_self]
      rfl
    exact key
  · intro hone
    exact cellAt_dropArc_self_of_one hc2 (by omega)
  · intro hgt
    exact cellAt_dropArc_self_of_gt hc2 hgt
  · rw [update_eq r h u hp hpos, update_eq r h (fun t => ((u t).1, ())) hp hpos]

/-- Witness for C10: an identity updater (whose `Bool` result is discarded)
still allocates and publishes a fresh version and frees the old one. -/
theorem rcu_update_always_fresh_witness :
    cellAt ([some ⟨1, 5⟩] : Heap Nat) (Rcu.mk 0).ptr = some ⟨1, 5⟩ ∧
    Rcu.update (Rcu.mk 0) ([some ⟨1, 5⟩] : Heap Nat) (fun t => (t, true))
      = (Rcu.mk 1, [none, some ⟨1, 5⟩]) ∧
    (Rcu.mk 1).ptr = List.length ([some ⟨1, 5⟩] : Heap Nat) ∧
    valueAt ([none, some ⟨1, 5⟩] : Heap Nat) (Rcu.mk 1).ptr = some 5 ∧
    cellAt ([none, some ⟨1, 5⟩] : Heap Nat) (Rcu.mk 0).ptr = none :=
  ⟨by decide, by decide,
   (rcu_update_always_fresh (Rcu.mk 0) [some ⟨1, 5⟩] ⟨1, 5⟩
     (fun t => (t, true)) (Rcu.mk 1) [none, some ⟨1, 5⟩] (by decide)
     (by decide) (by decide)).1,
   (rcu_update_always_fresh (Rcu.mk 0) [some ⟨1, 5⟩] ⟨1, 5⟩
     (fun t => (t, true)) (Rcu.mk 1) [none, some ⟨1, 5⟩] (by decide)
     (by decide) (by decide)).2.2.2.1,
   (rcu_update_always_fresh (Rcu.mk 0) [some ⟨1, 5⟩] ⟨1, 5⟩
     (fun t => (t, true)) (Rcu.mk 1) [none, some ⟨1, 5⟩] (by decide)
     (by decide) (by decide)).2.2.2.2.1 rfl⟩

end AxkaRcu
